import Mathlib

/-!
# Verification of the RAG pipeline (chunker, embeddings batching, indexer, retriever)

Shallow embedding of `src/rag/indexer.py`, `src/rag/embeddings.py` and
`src/rag/retriever.py`. Text is modelled as `List Char` (Python `str` is a
codepoint sequence), relevance scores as `ℚ` (no float arithmetic is performed
on them, only order comparisons), and the Azure AI Search store as a list of
records. External collaborators (SharePoint download, text extraction, the
OpenAI embedding service, tiktoken truncation) are parameters of the
corresponding functions.
-/

set_option maxRecDepth 10000

namespace RagPipeline

/-! ## Chunker (`DocumentIndexer.chunk_text`, indexer.py lines 266-330) -/

/-- Python `\s` / `str.strip()` whitespace for the ASCII range. -/
def pySpace (c : Char) : Bool :=
  c = ' ' ∨ c = '\t' ∨ c = '\n' ∨ c = '\r' ∨ c = '\x0b' ∨ c = '\x0c'

/-- Replace every whitespace character by `' '` , keeping run structure. -/
def mapWs (l : List Char) : List Char :=
  l.map (fun c => if pySpace c then ' ' else c)

/-- Collapse consecutive spaces to a single space. -/
def squeezeWs : List Char → List Char
  | [] => []
  | [c] => [c]
  | a :: b :: rest =>
    if a = ' ' ∧ b = ' ' then squeezeWs (b :: rest)
    else a :: squeezeWs (b :: rest)

/-- Drop trailing whitespace. -/
def dropTrailWs (l : List Char) : List Char :=
  (l.reverse.dropWhile pySpace).reverse

/-- Python `str.strip()`. -/
def pyStrip (l : List Char) : List Char :=
  dropTrailWs (l.dropWhile pySpace)

/-- `re.sub(r'\s+', ' ', text).strip()` — collapse each maximal whitespace
run to a single space, then strip. -/
def normalizeWs (l : List Char) : List Char :=
  pyStrip (squeezeWs (mapWs l))

/-- Scan the suffixes of the text left to right, remembering the index of the
most recent (hence, at the end, the last) occurrence of `pat`. -/
def rfindAux (pat : List Char) : List Char → Nat → Option Nat → Option Nat
  | [], _, best => best
  | c :: rest, i, best =>
    rfindAux pat rest (i + 1) (if pat.isPrefixOf (c :: rest) then some i else best)

/-- Python `str.rfind(sub)` (for non-empty `sub`): the largest index at which
`sub` occurs in `l`, as an `Option` (`none` models Python's `-1`). -/
def rfindSub (pat l : List Char) : Option Nat :=
  rfindAux pat l 0 none

/-- `DocumentIndexer.CHUNK_SIZE` (indexer.py line 66). -/
def CHUNK_SIZE : Nat := 1000

/-- `DocumentIndexer.CHUNK_OVERLAP` (indexer.py line 67). -/
def CHUNK_OVERLAP : Nat := 200

/-- The sentence-ending patterns searched in order (indexer.py line 304). -/
def sentencePatterns : List (List Char) :=
  [['.', ' '], ['.', '\n'], ['?', ' '], ['?', '\n'], ['!', ' '], ['!', '\n'], ['\n', '\n']]

/-- The pattern loop of indexer.py lines 304-310: take the first pattern in
order whose last occurrence yields a break position past the midpoint of the
target window. -/
def findPatternBreak (cs : Nat) (searchText : List Char) (searchStart start : Nat) :
    List (List Char) → Option Nat
  | [] => none
  | p :: ps =>
    match rfindSub p searchText with
    | some pos =>
      let actual_pos := searchStart + pos + p.length
      if start + cs / 2 < actual_pos then some actual_pos
      else findPatternBreak cs searchText searchStart start ps
    | none => findPatternBreak cs searchText searchStart start ps

/-- Break-position selection of indexer.py lines 297-319: sentence boundary in
the `±100` window, else last whitespace within `target_size + 50`, else a hard
cut at `target_size`. -/
def bestBreak (cs : Nat) (text : List Char) (start : Nat) : Nat :=
  let endPos := start + cs
  let searchStart := max (start + cs - 100) start
  let searchEnd := min (start + cs + 100) text.length
  let searchText := (text.drop searchStart).take (searchEnd - searchStart)
  match findPatternBreak cs searchText searchStart start sentencePatterns with
  | some bb => bb
  | none =>
    let searchText2 := (text.drop start).take (endPos + 50 - start)
    match rfindSub [' '] searchText2 with
    | some space_pos => if cs / 2 < space_pos then start + space_pos else endPos
    | none => endPos

/-- The `while start < len(text)` loop of indexer.py lines 288-329, fuel-based
(`none` models non-termination within the given fuel). -/
def chunkLoop (cs co : Nat) (text : List Char) :
    Nat → Nat → List (List Char) → Option (List (List Char))
  | 0, _, _ => none
  | fuel + 1, start, chunks =>
    if start < text.length then
      let endPos := start + cs
      if text.length ≤ endPos then
        some (chunks ++ [pyStrip (text.drop start)])
      else
        let bb := bestBreak cs text start
        let chunk := pyStrip ((text.drop start).take (bb - start))
        let chunks' := if chunk.isEmpty then chunks else chunks ++ [chunk]
        let start' := if bb < co then bb else bb - co
        chunkLoop cs co text fuel start' chunks'
    else
      some chunks

/-- `DocumentIndexer.chunk_text` generalized over the two class constants
(`target_size`, `overlap`); the source hard-codes `CHUNK_SIZE`/`CHUNK_OVERLAP`
but performs no validation on them. Fuel `length + 1` is exhausted only when
the Python loop fails to make progress. -/
def chunk_text_cfg (cs co : Nat) (text : List Char) : Option (List (List Char)) :=
  let t := normalizeWs text
  if t.length ≤ cs then some (if t.isEmpty then [] else [t])
  else chunkLoop cs co t (t.length + 1) 0 []

/-- `DocumentIndexer.chunk_text` (indexer.py lines 266-330). -/
def chunk_text (text : List Char) : Option (List (List Char)) :=
  chunk_text_cfg CHUNK_SIZE CHUNK_OVERLAP text

/-- The scenario input `"A. " * 500` (1500 characters). -/
def a500Text : List Char := (List.replicate 500 ['A', '.', ' ']).flatten

/-- No two adjacent whitespace characters occur in the text (true of any
normalized text; used to bound how much `pyStrip` can remove). -/
def noTwoSpaces : List Char → Bool
  | [] => true
  | [_] => true
  | a :: b :: rest => (!(pySpace a && pySpace b)) && noTwoSpaces (b :: rest)

/-! ## Retriever (`PolicyRetriever`, retriever.py) -/

/-- `RetrievalResult` (retriever.py lines 23-35). Scores are modelled as `ℚ`:
the code only compares them, never computes with them. -/
structure RetrievalResult where
  id : String
  document_name : String
  content : List Char
  score : ℚ
  source_url : String
  chunk_index : Nat
deriving DecidableEq

/-- A record of the Azure AI Search index (the fields uploaded by
indexer.py lines 375-384). -/
structure StoreRecord where
  id : String
  document_id : String
  document_name : String
  chunk_index : Nat
  content : List Char
  content_vector : List ℚ
  created_at : String
  source_url : String
deriving DecidableEq

/-- The result-processing loop of `PolicyRetriever.search` (retriever.py lines
108-130): walk the store's candidates in order, skip scores below `min_score`,
append the rest, and break as soon as `top_k` results have been collected (the
check runs after each append). -/
def searchLoop (top_k : Nat) (min_score : ℚ) :
    List RetrievalResult → List RetrievalResult → List RetrievalResult
  | [], acc => acc
  | c :: rest, acc =>
    if c.score < min_score then searchLoop top_k min_score rest acc
    else
      let acc' := acc ++ [c]
      if top_k ≤ acc'.length then acc'
      else searchLoop top_k min_score rest acc'

/-- `PolicyRetriever.search` (retriever.py lines 62-132). The query embedding
and the store call are external; `candidates` stands for the scored hits the
store returned for the hybrid query (the code requests at most `top_k * 2` of
them). -/
def search (candidates : List RetrievalResult) (top_k : Nat) (min_score : ℚ) :
    List RetrievalResult :=
  searchLoop top_k min_score candidates []

/-- Python string comparison: lexicographic by code point, a strict prefix
comparing less. -/
def charListLt : List Char → List Char → Bool
  | [], [] => false
  | [], _ :: _ => true
  | _ :: _, [] => false
  | a :: as, b :: bs => a < b || (a = b && charListLt as bs)

/-- Python `<` on strings. -/
def pyStrLt (a b : String) : Bool :=
  charListLt a.data b.data

/-- The ascending Python sort key `(document_name, chunk_index)` of
retriever.py lines 206-208, as a Boolean total preorder (Python tuple
comparison). -/
def keyLe (a b : RetrievalResult) : Bool :=
  pyStrLt a.document_name b.document_name ||
    (a.document_name == b.document_name && a.chunk_index ≤ b.chunk_index)

/-- Adjacent-sortedness by the `(document_name, chunk_index)` key. -/
def sortedByKey : List RetrievalResult → Bool
  | [] => true
  | [_] => true
  | a :: b :: rest => keyLe a b && sortedByKey (b :: rest)

/-- The distinct document names of the primary results in first-occurrence
order (the key order of the `docs_chunks` dict, retriever.py lines 161-166). -/
def distinctNames (results : List RetrievalResult) : List String :=
  results.foldl
    (fun acc r => if acc.contains r.document_name then acc else acc ++ [r.document_name]) []

/-- Membership in the `additional_indices` set of retriever.py lines 172-178:
within `context_chunks` of some primary chunk index of this document and not
itself a primary index (`new_idx ≥ 0` is the `Nat` clamp of `i - cc`). -/
def isAdditional (chunk_indices : List Nat) (cc : Nat) (j : Nat) : Bool :=
  (!(chunk_indices.contains j)) && chunk_indices.any (fun i => i - cc ≤ j && j ≤ i + cc)

/-- The neighbour fetch of retriever.py lines 180-191: all store records of the
document whose chunk index is in the additional set, in store order. -/
def fetchAdditional (store : List StoreRecord) (doc_name : String)
    (chunk_indices : List Nat) (cc : Nat) : List StoreRecord :=
  store.filter (fun r => r.document_name == doc_name &&
    isAdditional chunk_indices cc r.chunk_index)

/-- `PolicyRetriever.search_with_context` (retriever.py lines 134-210): primary
`search` with the default `min_score = 0.7`, early return on no results or zero
context, neighbour expansion with the fixed sentinel score `0.5`, and a final
stable sort by `(document_name, chunk_index)`. -/
def search_with_context (candidates : List RetrievalResult) (store : List StoreRecord)
    (top_k context_chunks : Nat) : List RetrievalResult :=
  let results := search candidates top_k (mkRat 7 10)
  if results.isEmpty ∨ context_chunks = 0 then results
  else
    let expanded := results ++
      (distinctNames results).flatMap (fun dn =>
        let idxs := (results.filter (fun r => r.document_name == dn)).map (·.chunk_index)
        (fetchAdditional store dn idxs context_chunks).map (fun rec =>
          { id := rec.id, document_name := rec.document_name, content := rec.content,
            score := mkRat 1 2, source_url := rec.source_url,
            chunk_index := rec.chunk_index : RetrievalResult }))
    expanded.mergeSort keyLe

/-! ## Embeddings (`EmbeddingsGenerator.generate_embeddings_batch`,
embeddings.py lines 145-185) -/

/-- Preprocessing (embeddings.py lines 160-167): truncate each text to the
token limit (tiktoken is external — `truncate` is a parameter) and replace
texts that are empty after stripping by a single-space placeholder. -/
def preprocessTexts (truncate : List Char → List Char) (texts : List (List Char)) :
    List (List Char) :=
  texts.map (fun t => if (pyStrip (truncate t)).isEmpty then [' '] else truncate t)

/-- The request-local-index sort key used on each batch response
(`sorted(response.data, key=lambda x: x.index)`, embeddings.py line 182). -/
def leIdx (a b : Nat × List ℚ) : Bool :=
  a.1 ≤ b.1

/-- The batching loop (embeddings.py lines 169-183): submit `batch_size` texts
at a time, re-sort each response (a list of index/vector pairs the service may
have permuted) by its request-local index, and concatenate in submission
order. Fuel-based; fuel `length` suffices for any positive batch size. -/
def batchLoop (service : List (List Char) → List (Nat × List ℚ)) (batch_size : Nat) :
    Nat → List (List Char) → List (List ℚ)
  | 0, _ => []
  | _, [] => []
  | fuel + 1, remaining =>
    let batch := remaining.take batch_size
    let response := service batch
    let batch_embeddings := response.mergeSort leIdx
    batch_embeddings.map (·.2) ++ batchLoop service batch_size fuel (remaining.drop batch_size)

/-- `EmbeddingsGenerator.generate_embeddings_batch` (embeddings.py lines
145-185), parameterized over the truncation function and the embedding
service. -/
def generate_embeddings_batch (truncate : List Char → List Char)
    (service : List (List Char) → List (Nat × List ℚ))
    (texts : List (List Char)) (batch_size : Nat) : List (List ℚ) :=
  let processed := preprocessTexts truncate texts
  batchLoop service batch_size processed.length processed

/-! ## SHA-256 (`hashlib.sha256`, used for chunk ids at indexer.py lines
371-373) — standard FIPS 180-4 implementation over byte lists, with 32-bit
words as `Nat` reduced mod `2^32`. -/

/-- `2^32`. -/
def w32 : Nat := 4294967296

/-- 32-bit right rotation. -/
def rotr32 (n x : Nat) : Nat := ((x >>> n) ||| (x <<< (32 - n))) % w32

/-- The SHA-256 round constants (FIPS 180-4 section 4.2.2, here in decimal). -/
def shaK : List Nat :=
  [1116352408, 1899447441, 3049323471, 3921009573, 961987163, 1508970993,
   2453635748, 2870763221, 3624381080, 310598401, 607225278, 1426881987,
   1925078388, 2162078206, 2614888103, 3248222580, 3835390401, 4022224774,
   264347078, 604807628, 770255983, 1249150122, 1555081692, 1996064986,
   2554220882, 2821834349, 2952996808, 3210313671, 3336571891, 3584528711,
   113926993, 338241895, 666307205, 773529912, 1294757372, 1396182291,
   1695183700, 1986661051, 2177026350, 2456956037, 2730485921, 2820302411,
   3259730800, 3345764771, 3516065817, 3600352804, 4094571909, 275423344,
   430227734, 506948616, 659060556, 883997877, 958139571, 1322822218,
   1537002063, 1747873779, 1955562222, 2024104815, 2227730452, 2361852424,
   2428436474, 2756734187, 3204031479, 3329325298]

/-- The SHA-256 initial hash value (FIPS 180-4 section 5.3.3, in decimal). -/
def shaH0 : List Nat :=
  [1779033703, 3144134277, 1013904242, 2773480762,
   1359893119, 2600822924, 528734635, 1541459225]

/-- Big-endian byte decomposition of `x` into `n` bytes. -/
def toBytesBE (n x : Nat) : List Nat :=
  (List.range n).map (fun i => (x >>> (8 * (n - 1 - i))) % 256)

/-- SHA-256 message padding: `0x80`, zeros to 56 mod 64, 8-byte bit length. -/
def shaPad (msg : List Nat) : List Nat :=
  msg ++ [0x80] ++ List.replicate ((119 - msg.length % 64) % 64) 0 ++
    toBytesBE 8 (msg.length * 8)

/-- Group bytes into big-endian 32-bit words. -/
def toWordsBE : List Nat → List Nat
  | b0 :: b1 :: b2 :: b3 :: rest =>
    (((b0 * 256 + b1) * 256 + b2) * 256 + b3) :: toWordsBE rest
  | _ => []

/-- Split the padded message into 64-byte blocks. -/
def toBlocksAux : Nat → List Nat → List (List Nat)
  | 0, _ => []
  | _, [] => []
  | fuel + 1, l => l.take 64 :: toBlocksAux fuel (l.drop 64)

def shaS0 (x : Nat) : Nat := (rotr32 7 x) ^^^ (rotr32 18 x) ^^^ (x >>> 3)

def shaS1 (x : Nat) : Nat := (rotr32 17 x) ^^^ (rotr32 19 x) ^^^ (x >>> 10)

def shaB0 (x : Nat) : Nat := (rotr32 2 x) ^^^ (rotr32 13 x) ^^^ (rotr32 22 x)

def shaB1 (x : Nat) : Nat := (rotr32 6 x) ^^^ (rotr32 11 x) ^^^ (rotr32 25 x)

/-- Extend the 16 message words to the 64-entry message schedule. -/
def shaSchedule (m : List Nat) : List Nat :=
  (List.range 48).foldl
    (fun w _ =>
      let n := w.length
      w ++ [(shaS1 (w.getD (n - 2) 0) + w.getD (n - 7) 0 +
             shaS0 (w.getD (n - 15) 0) + w.getD (n - 16) 0) % w32])
    m

/-- One SHA-256 compression round. -/
def shaRound (w : List Nat) (t : Nat) (st : List Nat) : List Nat :=
  match st with
  | [a, b, c, d, e, f, g, h] =>
    let ch := (e &&& f) ^^^ ((e ^^^ (w32 - 1)) &&& g)
    let maj := (a &&& b) ^^^ (a &&& c) ^^^ (b &&& c)
    let t1 := (h + shaB1 e + ch + shaK.getD t 0 + w.getD t 0) % w32
    let t2 := (shaB0 a + maj) % w32
    [(t1 + t2) % w32, a, b, c, (d + t1) % w32, e, f, g]
  | _ => st

/-- Compress one 64-byte block into the running hash. -/
def shaCompress (h : List Nat) (block : List Nat) : List Nat :=
  let w := shaSchedule (toWordsBE block)
  let s := (List.range 64).foldl (fun st t => shaRound w t st) h
  (h.zip s).map (fun p => (p.1 + p.2) % w32)

/-- SHA-256 digest of a byte list, as 32 bytes. -/
def sha256bytes (msg : List Nat) : List Nat :=
  let padded := shaPad msg
  ((toBlocksAux padded.length padded).foldl shaCompress shaH0).flatMap (toBytesBE 4)

/-- A lowercase hexadecimal digit. -/
def hexDigit (n : Nat) : Char :=
  if n < 10 then Char.ofNat (48 + n) else Char.ofNat (87 + n)

/-- Python `hexdigest()`: lowercase hex of the digest bytes. -/
def sha256hex (msg : List Nat) : List Char :=
  (sha256bytes msg).flatMap (fun b => [hexDigit (b / 16), hexDigit (b % 16)])

/-- UTF-8 encoding of one code point (Python `str.encode()`). -/
def utf8Bytes (c : Char) : List Nat :=
  let n := c.toNat
  if n < 0x80 then [n]
  else if n < 0x800 then
    [0xC0 ||| (n >>> 6), 0x80 ||| (n &&& 0x3F)]
  else if n < 0x10000 then
    [0xE0 ||| (n >>> 12), 0x80 ||| ((n >>> 6) &&& 0x3F), 0x80 ||| (n &&& 0x3F)]
  else
    [0xF0 ||| (n >>> 18), 0x80 ||| ((n >>> 12) &&& 0x3F),
     0x80 ||| ((n >>> 6) &&& 0x3F), 0x80 ||| (n &&& 0x3F)]

/-- UTF-8 encoding of a text. -/
def encodeUtf8 (l : List Char) : List Nat := l.flatMap utf8Bytes

/-! ## Indexer (`DocumentIndexer`, indexer.py) -/

/-- `SharePointDocument` metadata consumed by the indexer
(sharepoint/client.py lines 22-50). -/
structure SPDocument where
  id : String
  name : String
  web_url : String
  download_url : String
  mime_type : String
  size : Nat
deriving DecidableEq

/-- `SharePointDocument.is_pdf` (sharepoint/client.py lines 34-37). -/
def SPDocument.is_pdf (d : SPDocument) : Bool :=
  d.mime_type == "application/pdf"

/-- `SharePointDocument.is_docx` (sharepoint/client.py lines 39-45). -/
def SPDocument.is_docx (d : SPDocument) : Bool :=
  d.mime_type == "application/vnd.openxmlformats-officedocument.wordprocessingml.document" ||
    d.mime_type == "application/msword"

/-- `SharePointDocument.is_supported` (sharepoint/client.py lines 47-50). -/
def SPDocument.is_supported (d : SPDocument) : Bool :=
  d.is_pdf || d.is_docx

/-- The chunk id of indexer.py lines 371-373:
`hashlib.sha256(f"{document.id}_{i}_{chunk[:100]}".encode()).hexdigest()[:32]`. -/
def chunkId (document_id : String) (i : Nat) (chunk : List Char) : String :=
  String.mk ((sha256hex (encodeUtf8
    (document_id.data ++ ['_'] ++ (toString i).data ++ ['_'] ++ chunk.take 100))).take 32)

/-- Insert-or-replace one record by id (the `VectorStore.upsert` semantics of
the store's `upload_documents`, spec §6 / indexer.py line 387). -/
def upsertOne (store : List StoreRecord) (d : StoreRecord) : List StoreRecord :=
  if store.any (fun r => r.id == d.id) then
    store.map (fun r => if r.id == d.id then d else r)
  else store ++ [d]

/-- `search_client.upload_documents`: upsert each record in order; in this
model every item succeeds. -/
def upload_documents (store : List StoreRecord) (ds : List StoreRecord) :
    List StoreRecord :=
  ds.foldl upsertOne store

/-- `DocumentIndexer.index_document` (indexer.py lines 332-392). Download and
extraction are external, so `text` is the extracted text; `embedBatch` is the
embeddings pipeline; `now` the timestamp string. Returns the number of
successfully indexed chunks and the store after the upload. -/
def index_document (doc : SPDocument) (text : List Char)
    (embedBatch : List (List Char) → List (List ℚ)) (now : String)
    (store : List StoreRecord) : Nat × List StoreRecord :=
  if text.isEmpty then (0, store)
  else
    match chunk_text text with
    | none => (0, store)
    | some chunks =>
      if chunks.isEmpty then (0, store)
      else
        let embeddings := embedBatch chunks
        let documents_to_index := (chunks.zip embeddings).enum.map (fun p =>
          { id := chunkId doc.id p.1 p.2.1,
            document_id := doc.id, document_name := doc.name,
            chunk_index := p.1, content := p.2.1, content_vector := p.2.2,
            created_at := now, source_url := doc.web_url : StoreRecord })
        (documents_to_index.length, upload_documents store documents_to_index)

/-- The chunk ids a run of `index_document` uploads — a pure function of the
document id and the extracted text. -/
def index_document_ids (doc : SPDocument) (text : List Char) : List String :=
  if text.isEmpty then []
  else
    match chunk_text text with
    | none => []
    | some chunks =>
      if chunks.isEmpty then []
      else chunks.enum.map (fun p => chunkId doc.id p.1 p.2)

/-- Python-dict insertion (`results[doc.name] = chunk_count`,
indexer.py lines 415 and 418): overwrite in place, else append. -/
def dictInsert (m : List (String × Nat)) (k : String) (v : Nat) :
    List (String × Nat) :=
  if m.any (fun p => p.1 == k) then m.map (fun p => if p.1 == k then (k, v) else p)
  else m ++ [(k, v)]

/-- Python-dict lookup. -/
def dictLookup (m : List (String × Nat)) (k : String) : Option Nat :=
  (m.find? (fun p => p.1 == k)).map (·.2)

/-- One iteration of the `index_all_documents` loop (indexer.py lines
412-418): record the chunk count on success, and catch any exception,
recording `0` for that document and continuing. -/
def indexAllStep (indexResult : SPDocument → Except Unit Nat)
    (results : List (String × Nat)) (doc : SPDocument) : List (String × Nat) :=
  match indexResult doc with
  | .ok chunk_count => dictInsert results doc.name chunk_count
  | .error _ => dictInsert results doc.name 0

/-- `DocumentIndexer.index_all_documents` (indexer.py lines 394-420): filter to
supported documents and index them in turn; `indexResult d` is the outcome of
`index_document` for `d` (`.ok n` = n chunks, `.error u` = an exception). -/
def index_all_documents (indexResult : SPDocument → Except Unit Nat)
    (documents : List SPDocument) : List (String × Nat) :=
  (documents.filter (fun d => d.is_supported)).foldl (indexAllStep indexResult) []

/-- Whether the names of the documents are pairwise distinct. -/
def namesNodup : List SPDocument → Bool
  | [] => true
  | d :: ds => (!(ds.any (fun e => e.name == d.name))) && namesNodup ds

/-- `DocumentIndexer.delete_document_chunks` (indexer.py lines 422-445):
collect the ids of all store records with this `document_id`, issue one
`delete_documents` call when the list is non-empty, and return the count.
The second component is the list of delete batches issued. -/
def delete_document_chunks (store : List StoreRecord) (document_id : String) :
    Nat × List (List String) × List StoreRecord :=
  let chunk_ids := (store.filter (fun r => r.document_id == document_id)).map (·.id)
  if chunk_ids.isEmpty then (chunk_ids.length, [], store)
  else (chunk_ids.length, [chunk_ids],
    store.filter (fun r => !(chunk_ids.contains r.id)))

/-! ### Chunker lemmas -/

theorem rfindAux_sound {pat l : List Char} :
    ∀ (suffix : List Char) (i : Nat) (best : Option Nat),
    suffix = l.drop i →
    (∀ k, best = some k → pat.isPrefixOf (l.drop k) = true ∧ k + pat.length ≤ l.length) →
    ∀ j, rfindAux pat suffix i best = some j →
    pat.isPrefixOf (l.drop j) = true ∧ j + pat.length ≤ l.length := by
  intro suffix
  induction suffix with
  | nil =>
    intro i best _ hbest j h
    exact hbest j h
  | cons c rest ih =>
    intro i best hsuf hbest j h
    rw [rfindAux] at h
    refine ih (i + 1) _ ?_ ?_ j h
    · have : (l.drop i).drop 1 = l.drop (i + 1) := by
        rw [List.drop_drop, Nat.add_comm]
      rw [← this, ← hsuf]
      rfl
    · intro k hk
      by_cases hm : pat.isPrefixOf (c :: rest) = true
      · rw [if_pos hm, Option.some.injEq] at hk
        subst hk
        refine ⟨by rw [← hsuf]; exact hm, ?_⟩
        have hpre : pat <+: (c :: rest) := List.isPrefixOf_iff_prefix.mp hm
        have h1 : pat.length ≤ (c :: rest).length := hpre.length_le
        have h2 : (c :: rest).length = l.length - i := by rw [hsuf, List.length_drop]
        have h3 : i ≤ l.length := by
          rcases Nat.le_total i l.length with h' | h'
          · exact h'
          · exfalso
            have hnil : l.drop i = [] := List.drop_eq_nil_of_le h'
            rw [← hsuf] at hnil
            simp at hnil
        simp only [List.length_cons] at h1 h2
        omega
      · rw [if_neg hm] at hk
        exact hbest k hk

theorem rfindSub_isPrefixOf {pat l : List Char} {i : Nat}
    (h : rfindSub pat l = some i) : pat.isPrefixOf (l.drop i) = true :=
  (rfindAux_sound l 0 none rfl (by simp) i h).1

theorem rfindSub_le {pat l : List Char} {i : Nat}
    (h : rfindSub pat l = some i) : i + pat.length ≤ l.length :=
  (rfindAux_sound l 0 none rfl (by simp) i h).2

theorem findPatternBreak_lower {cs : Nat} {searchText : List Char}
    {searchStart start : Nat} {ps : List (List Char)} {bb : Nat}
    (h : findPatternBreak cs searchText searchStart start ps = some bb) :
    start + cs / 2 < bb := by
  induction ps with
  | nil => simp [findPatternBreak] at h
  | cons p ps ih =>
    rw [findPatternBreak] at h
    cases hr : rfindSub p searchText with
    | none => rw [hr] at h; exact ih h
    | some pos =>
      rw [hr] at h
      simp only at h
      by_cases hq : start + cs / 2 < searchStart + pos + p.length
      · simp only [if_pos hq, Option.some.injEq] at h
        omega
      · simp only [if_neg hq] at h
        exact ih h

theorem findPatternBreak_le {cs : Nat} {searchText : List Char}
    {searchStart start : Nat} {ps : List (List Char)} {bb : Nat}
    (h : findPatternBreak cs searchText searchStart start ps = some bb) :
    bb ≤ searchStart + searchText.length := by
  induction ps with
  | nil => simp [findPatternBreak] at h
  | cons p ps ih =>
    rw [findPatternBreak] at h
    cases hr : rfindSub p searchText with
    | none => rw [hr] at h; exact ih h
    | some pos =>
      rw [hr] at h
      simp only at h
      by_cases hq : start + cs / 2 < searchStart + pos + p.length
      · simp only [if_pos hq, Option.some.injEq] at h
        have := rfindSub_le hr
        omega
      · simp only [if_neg hq] at h
        exact ih h

theorem bestBreak_le (cs : Nat) (text : List Char) (start : Nat) :
    bestBreak cs text start ≤ start + cs + 100 := by
  unfold bestBreak
  simp only
  split
  next bb hfp =>
    have hle := findPatternBreak_le hfp
    have hlen : ((text.drop (max (start + cs - 100) start)).take
        (min (start + cs + 100) text.length - max (start + cs - 100) start)).length ≤
        min (start + cs + 100) text.length - max (start + cs - 100) start := by
      simp [List.length_take]
    have hmin : min (start + cs + 100) text.length ≤ start + cs + 100 := Nat.min_le_left _ _
    have hmax : max (start + cs - 100) start ≤ start + cs := by omega
    omega
  next hfp =>
    split
    next space_pos hr =>
      have hsp := rfindSub_le hr
      have hlen : ((text.drop start).take (start + cs + 50 - start)).length ≤
          start + cs + 50 - start := by simp [List.length_take]
      by_cases hq : cs / 2 < space_pos
      · simp only [if_pos hq]
        omega
      · simp only [if_neg hq]
        omega
    next hr => omega

theorem bestBreak_lower (cs : Nat) (text : List Char) (start : Nat) :
    start + cs / 2 < bestBreak cs text start ∨ bestBreak cs text start = start + cs := by
  unfold bestBreak
  simp only
  split
  next bb hfp => exact Or.inl (findPatternBreak_lower hfp)
  next hfp =>
    split
    next space_pos hr =>
      by_cases hq : cs / 2 < space_pos
      · simp only [if_pos hq]; left; omega
      · simp only [if_neg hq]; right; trivial
    next hr => right; trivial

theorem length_dropWhile_le (p : Char → Bool) (l : List Char) :
    (l.dropWhile p).length ≤ l.length :=
  (List.dropWhile_suffix p).sublist.length_le

theorem length_dropTrailWs_le (l : List Char) : (dropTrailWs l).length ≤ l.length := by
  have h := length_dropWhile_le pySpace l.reverse
  simpa [dropTrailWs] using h

theorem length_pyStrip_le (l : List Char) : (pyStrip l).length ≤ l.length := by
  have h1 := length_dropTrailWs_le (l.dropWhile pySpace)
  have h2 := length_dropWhile_le pySpace l
  simpa [pyStrip] using le_trans h1 h2

theorem chunkLoop_length_le (cs co : Nat) (text : List Char) :
    ∀ fuel start chunks, (∀ c ∈ chunks, c.length ≤ cs + 100) →
    ∀ {l}, chunkLoop cs co text fuel start chunks = some l →
    ∀ c ∈ l, c.length ≤ cs + 100 := by
  intro fuel
  induction fuel with
  | zero => intro start chunks _ l h; simp [chunkLoop] at h
  | succ fuel ih =>
    intro start chunks hacc l h
    rw [chunkLoop] at h
    by_cases hlt : start < text.length
    · simp only [if_pos hlt] at h
      by_cases hend : text.length ≤ start + cs
      · simp only [if_pos hend, Option.some.injEq] at h
        subst h
        intro c hc
        rcases List.mem_append.mp hc with hc1 | hc2
        · exact hacc c hc1
        · have hc2' : c = pyStrip (text.drop start) := by simpa using hc2
          subst hc2'
          have h1 := length_pyStrip_le (text.drop start)
          have h2 : (text.drop start).length = text.length - start := List.length_drop ..
          omega
      · simp only [if_neg hend] at h
        refine ih _ _ ?_ h
        intro c hc
        by_cases hempt : (pyStrip ((text.drop start).take (bestBreak cs text start - start))).isEmpty
        · rw [if_pos hempt] at hc
          exact hacc c hc
        · rw [if_neg hempt] at hc
          rcases List.mem_append.mp hc with hc1 | hc2
          · exact hacc c hc1
          · have hc2' : c = pyStrip ((text.drop start).take (bestBreak cs text start - start)) := by
              simpa using hc2
            subst hc2'
            have h1 := length_pyStrip_le ((text.drop start).take (bestBreak cs text start - start))
            have h2 : ((text.drop start).take (bestBreak cs text start - start)).length ≤
                bestBreak cs text start - start := by simp [List.length_take]
            have h3 := bestBreak_le cs text start
            omega
    · simp only [if_neg hlt, Option.some.injEq] at h
      subst h
      exact hacc

theorem chunkLoop_total (cs co : Nat) (text : List Char) (hcs : 0 < cs)
    (hco : co ≤ cs / 2) :
    ∀ fuel start chunks, text.length - start < fuel →
    ∃ l, chunkLoop cs co text fuel start chunks = some l := by
  intro fuel
  induction fuel with
  | zero => intro start chunks h; omega
  | succ fuel ih =>
    intro start chunks hfuel
    rw [chunkLoop]
    by_cases hlt : start < text.length
    · simp only [if_pos hlt]
      by_cases hend : text.length ≤ start + cs
      · simp only [if_pos hend]
        exact ⟨_, rfl⟩
      · simp only [if_neg hend]
        have hbb := bestBreak_lower cs text start
        have hdiv : cs / 2 < cs := Nat.div_lt_self hcs (by omega)
        have hbb_gt : start + co < bestBreak cs text start := by
          rcases hbb with h1 | h2
          · omega
          · omega
        have hclamp : ¬ bestBreak cs text start < co := by omega
        rw [if_neg hclamp]
        refine ih (bestBreak cs text start - co) _ ?_
        omega
    · simp only [if_neg hlt]
      exact ⟨_, rfl⟩

theorem chunk_text_cfg_default_total (text : List Char) :
    ∃ l, chunk_text_cfg CHUNK_SIZE CHUNK_OVERLAP text = some l := by
  rw [chunk_text_cfg]
  by_cases hle : (normalizeWs text).length ≤ CHUNK_SIZE
  · rw [if_pos hle]
    exact ⟨_, rfl⟩
  · rw [if_neg hle]
    exact chunkLoop_total CHUNK_SIZE CHUNK_OVERLAP (normalizeWs text)
      (by decide) (by decide) ((normalizeWs text).length + 1) 0 [] (by omega)

/-- **C4** (confirmed): with the configured parameters `target_size = 1000` and
`overlap = 200`, every chunk returned by `chunk_text` has length at most
`target_size + 100` characters — the sentence-boundary branch, the whitespace
fallback, the hard cut and the final chunk all stay within the slack bound. -/
theorem chunk_text_length_bound {text : List Char} {l : List (List Char)}
    (h : chunk_text text = some l) : ∀ c ∈ l, c.length ≤ CHUNK_SIZE + 100 := by
  rw [chunk_text, chunk_text_cfg] at h
  by_cases hle : (normalizeWs text).length ≤ CHUNK_SIZE
  · rw [if_pos hle, Option.some.injEq] at h
    subst h
    by_cases he : (normalizeWs text).isEmpty
    · rw [if_pos he]
      intro c hc
      simp at hc
    · rw [if_neg he]
      intro c hc
      have hc' : c = normalizeWs text := by simpa using hc
      subst hc'
      omega
  · rw [if_neg hle] at h
    exact chunkLoop_length_le CHUNK_SIZE CHUNK_OVERLAP (normalizeWs text)
      ((normalizeWs text).length + 1) 0 [] (by simp) h

/-- Witness for C4 at a concrete 1100-character input that exercises the
chunking loop (hard-cut branch plus final chunk). -/
theorem chunk_text_length_bound_witness :
    chunk_text (List.replicate 1100 'a') =
      some [List.replicate 1000 'a', List.replicate 300 'a'] ∧
    ∀ c ∈ [List.replicate 1000 'a', List.replicate 300 'a'], c.length ≤ CHUNK_SIZE + 100 :=
  ⟨by decide, @chunk_text_length_bound (List.replicate 1100 'a') _ (by decide)⟩

/-- **C5** (confirmed): `chunk_text` terminates on every input and returns a
finite chunk list: the chosen break position always exceeds the window start by
more than the overlap, so the next window start strictly advances; the
fuel-indexed loop therefore never exhausts its fuel. -/
theorem chunk_text_terminates (text : List Char) :
    (∀ start, start + CHUNK_OVERLAP < bestBreak CHUNK_SIZE (normalizeWs text) start) ∧
    ∃ l, chunk_text text = some l := by
  constructor
  · intro start
    rcases bestBreak_lower CHUNK_SIZE (normalizeWs text) start with h | h
    · have : (CHUNK_OVERLAP : Nat) ≤ CHUNK_SIZE / 2 := by decide
      omega
    · have h2 : (CHUNK_OVERLAP : Nat) < CHUNK_SIZE := by decide
      omega
  · exact chunk_text_cfg_default_total text

/-- **C6 counterexample**: with `target_size = 2` and `overlap = 3` (so
`overlap ≥ target_size`) the chunking code does not reject the configuration:
it runs the chunking loop and returns chunks normally. The source contains no
`ConfigurationError` and performs no validation of the two constants. -/
theorem chunk_overlap_not_validated :
    chunk_text_cfg 2 3 ['a', 'b', 'c'] = some [['a', 'b'], ['c']] := by decide

/-- **C6 amended** (corrected): the code performs no overlap/target-size
validation and has no configuration-error path; its configuration is fixed at
`CHUNK_SIZE = 1000`, `CHUNK_OVERLAP = 200`, which satisfies
`overlap < target_size`, and under this sole configuration the chunking loop
always terminates. -/
theorem chunk_config_fixed_and_valid :
    CHUNK_OVERLAP < CHUNK_SIZE ∧
    (∀ text, chunk_text text = chunk_text_cfg CHUNK_SIZE CHUNK_OVERLAP text) ∧
    ∀ text, ∃ l, chunk_text_cfg CHUNK_SIZE CHUNK_OVERLAP text = some l :=
  ⟨by decide, fun _ => rfl, chunk_text_cfg_default_total⟩

theorem dropTrailWs_eq_self {l : List Char}
    (hlast : ∀ c, l.getLast? = some c → pySpace c = false) : dropTrailWs l = l := by
  rw [dropTrailWs]
  cases hr : l.reverse with
  | nil =>
    have : l = [] := by simpa using congrArg List.reverse hr
    simp [this]
  | cons c t =>
    have hc : l.getLast? = some c := by
      rw [← List.head?_reverse, hr]
      rfl
    have hcs : pySpace c = false := hlast c hc
    rw [List.dropWhile_cons, hcs]
    simp only [Bool.false_eq_true, if_false]
    rw [← hr, List.reverse_reverse]

theorem noTwoSpaces_tail {l : List Char} (h : noTwoSpaces l = true) :
    noTwoSpaces l.tail = true := by
  match l with
  | [] => rfl
  | [_] => rfl
  | a :: b :: rest =>
    rw [noTwoSpaces, Bool.and_eq_true] at h
    exact h.2

theorem noTwoSpaces_drop {l : List Char} (h : noTwoSpaces l = true) (s : Nat) :
    noTwoSpaces (l.drop s) = true := by
  induction s with
  | zero => simpa using h
  | succ n ih =>
    have h1 : l.drop (n + 1) = (l.drop n).drop 1 := by
      rw [List.drop_drop, Nat.add_comm]
    rw [h1, List.drop_one]
    exact noTwoSpaces_tail ih

theorem length_dropWhile_noTwoSpaces_ge {l : List Char}
    (hch : noTwoSpaces l = true) :
    l.length ≤ (l.dropWhile pySpace).length + 1 := by
  cases l with
  | nil => simp
  | cons c rest =>
    rw [List.dropWhile_cons]
    by_cases hc : pySpace c = true
    · rw [if_pos hc]
      cases rest with
      | nil => simp
      | cons d rest' =>
        rw [noTwoSpaces, Bool.and_eq_true] at hch
        have hd := hch.1
        have hds : pySpace d = false := by
          rcases Bool.eq_false_or_eq_true (pySpace d) with h | h
          · rw [h] at hd
            rw [hc] at hd
            simp at hd
          · exact h
        rw [List.dropWhile_cons, hds]
        simp
    · rw [if_neg hc]
      simp

theorem suffix_getLast? {l d : List Char} (hsuf : d <:+ l) (hne : d ≠ []) :
    d.getLast? = l.getLast? := by
  obtain ⟨pre, hpre⟩ := hsuf
  rw [← hpre]
  exact (List.getLast?_append_of_ne_nil _ hne).symm

/-- On a text with no two adjacent whitespace characters and a non-whitespace
last character, stripping the suffix starting at `s` removes at most one
leading character and nothing at the tail. -/
theorem length_pyStrip_drop_ge {l : List Char} {s : Nat}
    (hch : noTwoSpaces l = true)
    (hlast : ∀ c, l.getLast? = some c → pySpace c = false)
    (hs : s < l.length) :
    l.length - s - 1 ≤ (pyStrip (l.drop s)).length := by
  have hdne : l.drop s ≠ [] := by
    intro h
    have : (l.drop s).length = 0 := by rw [h]; rfl
    rw [List.length_drop] at this
    omega
  have hdch : noTwoSpaces (l.drop s) = true := noTwoSpaces_drop hch s
  have hlen1 := length_dropWhile_noTwoSpaces_ge hdch
  by_cases hwne : (l.drop s).dropWhile pySpace = []
  · rw [hwne] at hlen1
    simp only [List.length_nil] at hlen1
    rw [List.length_drop] at hlen1
    omega
  · have hwsuf : (l.drop s).dropWhile pySpace <:+ l := by
      have h1 : (l.drop s).dropWhile pySpace <:+ l.drop s := List.dropWhile_suffix pySpace
      have h2 : l.drop s <:+ l := List.drop_suffix s l
      exact h1.trans h2
    have hwlast : ∀ c, ((l.drop s).dropWhile pySpace).getLast? = some c → pySpace c = false := by
      intro c hc
      rw [suffix_getLast? hwsuf hwne] at hc
      exact hlast c hc
    rw [pyStrip, dropTrailWs_eq_self hwlast]
    rw [List.length_drop] at hlen1
    omega

/-- **C9 counterexample**: for the input `"A. " * 500` with the configured
parameters, `chunk_text` does produce exactly 2 chunks, but the second chunk
begins at position 898 of the normalized text, not at or before position 800:
no start position `s ≤ 800` yields the second chunk. -/
theorem chunk_text_a500_second_chunk_not_before_800 :
    chunk_text a500Text =
      some [pyStrip ((normalizeWs a500Text).take 1098),
            pyStrip ((normalizeWs a500Text).drop 898)] ∧
    ¬ ∃ s ≤ 800, pyStrip ((normalizeWs a500Text).drop s) =
      pyStrip ((normalizeWs a500Text).drop 898) := by
  refine ⟨by decide, ?_⟩
  rintro ⟨s, hs, heq⟩
  have hch : noTwoSpaces (normalizeWs a500Text) = true := by decide
  have hlastval : (normalizeWs a500Text).getLast? = some '.' := by decide
  have hlast : ∀ c, (normalizeWs a500Text).getLast? = some c → pySpace c = false := by
    intro c hc
    rw [hlastval, Option.some.injEq] at hc
    subst hc
    decide
  have hlen : (normalizeWs a500Text).length = 1499 := by decide
  have h601 : (pyStrip ((normalizeWs a500Text).drop 898)).length = 601 := by decide
  have hge := length_pyStrip_drop_ge hch hlast (show s < (normalizeWs a500Text).length by omega)
  rw [heq, h601, hlen] at hge
  omega

/-- **C9 amended** (corrected): for `"A. " * 500` (1500 chars, normalized to
1499) with `target_size = 1000`, `overlap = 200`, `chunk_text` produces exactly
2 chunks; the first is the strip of the first 1098 characters and ends at the
sentence boundary `". "` at break position 1098 (within the `±100` slack of the
1000 target), and the second begins at position `1098 - 200 = 898` (at or
before position 900) of the normalized text. -/
theorem chunk_text_a500_scenario :
    chunk_text a500Text =
      some [pyStrip ((normalizeWs a500Text).take 1098),
            pyStrip ((normalizeWs a500Text).drop 898)] ∧
    bestBreak CHUNK_SIZE (normalizeWs a500Text) 0 = 1098 ∧
    ((normalizeWs a500Text).take 1098).drop 1096 = ['.', ' '] ∧
    (pyStrip ((normalizeWs a500Text).take 1098)).length = 1097 ∧
    (pyStrip ((normalizeWs a500Text).drop 898)).length = 601 ∧
    898 ≤ 900 := by
  exact ⟨by decide, by decide, by decide, by decide, by decide, by decide⟩

/-! ### Retriever lemmas -/

theorem searchLoop_eq (top_k : Nat) (min_score : ℚ) :
    ∀ (l acc : List RetrievalResult), acc.length < max top_k 1 →
    searchLoop top_k min_score l acc =
      acc ++ (l.filter (fun c => min_score ≤ c.score)).take (max top_k 1 - acc.length) := by
  intro l
  induction l with
  | nil => intro acc _; simp [searchLoop]
  | cons c rest ih =>
    intro acc hacc
    rw [searchLoop]
    by_cases hlt : c.score < min_score
    · rw [if_pos hlt]
      have hfilt : (decide (min_score ≤ c.score)) = false := by
        simp only [decide_eq_false_iff_not]
        exact not_le.mpr hlt
      rw [List.filter_cons, hfilt]
      simp only [Bool.false_eq_true, if_false]
      exact ih acc hacc
    · rw [if_neg hlt]
      simp only
      have hfilt : (decide (min_score ≤ c.score)) = true := by
        simp only [decide_eq_true_eq]
        exact not_lt.mp hlt
      rw [List.filter_cons, hfilt]
      simp only [if_true]
      by_cases hstop : top_k ≤ (acc ++ [c]).length
      · rw [if_pos hstop]
        have hlen : (acc ++ [c]).length = acc.length + 1 := by simp
        have htake : max top_k 1 - acc.length = 1 := by omega
        rw [htake]
        simp [List.take_one]
      · rw [if_neg hstop]
        have hlen : (acc ++ [c]).length = acc.length + 1 := by simp
        have hacc' : (acc ++ [c]).length < max top_k 1 := by omega
        rw [ih (acc ++ [c]) hacc']
        have htake : max top_k 1 - acc.length = (max top_k 1 - (acc ++ [c]).length) + 1 := by
          omega
        rw [htake, List.take_succ_cons]
        simp

theorem search_eq (candidates : List RetrievalResult) (top_k : Nat) (min_score : ℚ) :
    search candidates top_k min_score =
      (candidates.filter (fun c => min_score ≤ c.score)).take (max top_k 1) := by
  rw [search, searchLoop_eq top_k min_score candidates []
    (by simp)]
  simp

/-- **C7** (confirmed): for the same candidate sequence returned by the store
(of which there are at most `top_k * 2`), raising `min_score` never increases
the result count of `search`; every returned result scores at least
`min_score`, and at most `top_k` results are returned. -/
theorem search_min_score_monotone (candidates : List RetrievalResult)
    (top_k : Nat) (a b : ℚ) (hab : a ≤ b)
    (hlen : candidates.length ≤ 2 * top_k) :
    (search candidates top_k b).length ≤ (search candidates top_k a).length ∧
    (∀ r ∈ search candidates top_k b, b ≤ r.score) ∧
    (search candidates top_k b).length ≤ top_k := by
  rw [search_eq, search_eq]
  refine ⟨?_, ?_, ?_⟩
  · rw [List.length_take, List.length_take]
    have hmono : (candidates.filter (fun c => b ≤ c.score)).length ≤
        (candidates.filter (fun c => a ≤ c.score)).length := by
      rw [← List.countP_eq_length_filter, ← List.countP_eq_length_filter]
      refine List.countP_mono_left ?_
      intro c _ hc
      simp only [decide_eq_true_eq] at hc ⊢
      exact le_trans hab hc
    omega
  · intro r hr
    have hr' := List.mem_of_mem_take hr
    have := List.mem_filter.mp hr'
    simpa using this.2
  · rw [List.length_take]
    have hfle : (candidates.filter (fun c => b ≤ c.score)).length ≤ candidates.length :=
      List.length_filter_le _ _
    omega

/-- Witness for C7: two candidates, `top_k = 1`, thresholds `1/2 ≤ 4/5`. -/
theorem search_min_score_monotone_witness :
    (1 : ℚ)/2 ≤ 4/5 ∧
    ([⟨"c1", "Doc", ['x'], 9/10, "u", 0⟩,
      ⟨"c2", "Doc", ['y'], 3/10, "u", 1⟩] : List RetrievalResult).length ≤ 2 * 1 ∧
    ((search [⟨"c1", "Doc", ['x'], 9/10, "u", 0⟩,
        ⟨"c2", "Doc", ['y'], 3/10, "u", 1⟩] 1 (4/5)).length ≤
      (search [⟨"c1", "Doc", ['x'], 9/10, "u", 0⟩,
        ⟨"c2", "Doc", ['y'], 3/10, "u", 1⟩] 1 (1/2)).length ∧
     (∀ r ∈ search [⟨"c1", "Doc", ['x'], 9/10, "u", 0⟩,
        ⟨"c2", "Doc", ['y'], 3/10, "u", 1⟩] 1 (4/5), (4:ℚ)/5 ≤ r.score) ∧
     (search [⟨"c1", "Doc", ['x'], 9/10, "u", 0⟩,
        ⟨"c2", "Doc", ['y'], 3/10, "u", 1⟩] 1 (4/5)).length ≤ 1) :=
  ⟨by norm_num, by decide,
    search_min_score_monotone _ 1 (1/2) (4/5) (by norm_num) (by decide)⟩

theorem charListLt_trans : ∀ a b c : List Char,
    charListLt a b = true → charListLt b c = true → charListLt a c = true := by
  intro a
  induction a with
  | nil =>
    intro b c h1 h2
    cases b with
    | nil => simp [charListLt] at h1
    | cons y ys =>
      cases c with
      | nil => simp [charListLt] at h2
      | cons z zs => rfl
  | cons x xs ih =>
    intro b c h1 h2
    cases b with
    | nil => simp [charListLt] at h1
    | cons y ys =>
      cases c with
      | nil => simp [charListLt] at h2
      | cons z zs =>
        rw [charListLt, Bool.or_eq_true, Bool.and_eq_true, decide_eq_true_eq,
          decide_eq_true_eq] at h1 h2 ⊢
        rcases h1 with h1 | ⟨h1, h1'⟩ <;> rcases h2 with h2 | ⟨h2, h2'⟩
        · exact Or.inl (lt_trans h1 h2)
        · exact Or.inl (h2 ▸ h1)
        · exact Or.inl (h1 ▸ h2)
        · exact Or.inr ⟨h1.trans h2, ih ys zs h1' h2'⟩

theorem charListLt_total : ∀ a b : List Char,
    a = b ∨ charListLt a b = true ∨ charListLt b a = true := by
  intro a
  induction a with
  | nil =>
    intro b
    cases b with
    | nil => exact Or.inl rfl
    | cons y ys => exact Or.inr (Or.inl rfl)
  | cons x xs ih =>
    intro b
    cases b with
    | nil => exact Or.inr (Or.inr rfl)
    | cons y ys =>
      rcases lt_trichotomy x y with h | h | h
      · refine Or.inr (Or.inl ?_)
        rw [charListLt, Bool.or_eq_true, decide_eq_true_eq]
        exact Or.inl h
      · subst h
        rcases ih ys with h' | h' | h'
        · exact Or.inl (h' ▸ rfl)
        · refine Or.inr (Or.inl ?_)
          rw [charListLt, Bool.or_eq_true, Bool.and_eq_true, decide_eq_true_eq,
            decide_eq_true_eq]
          exact Or.inr ⟨rfl, h'⟩
        · refine Or.inr (Or.inr ?_)
          rw [charListLt, Bool.or_eq_true, Bool.and_eq_true, decide_eq_true_eq,
            decide_eq_true_eq]
          exact Or.inr ⟨rfl, h'⟩
      · refine Or.inr (Or.inr ?_)
        rw [charListLt, Bool.or_eq_true, decide_eq_true_eq]
        exact Or.inl h

theorem string_ext_of_data {a b : String} (h : a.data = b.data) : a = b := by
  cases a
  cases b
  exact congrArg String.mk h

theorem keyLe_trans (a b c : RetrievalResult) (hab : keyLe a b = true)
    (hbc : keyLe b c = true) : keyLe a c = true := by
  rw [keyLe, Bool.or_eq_true, Bool.and_eq_true, beq_iff_eq, decide_eq_true_eq] at hab hbc ⊢
  rcases hab with h1 | ⟨h1, h1'⟩ <;> rcases hbc with h2 | ⟨h2, h2'⟩
  · exact Or.inl (charListLt_trans _ _ _ h1 h2)
  · exact Or.inl (h2 ▸ h1)
  · exact Or.inl (h1 ▸ h2)
  · exact Or.inr ⟨h1.trans h2, le_trans h1' h2'⟩

theorem keyLe_total (a b : RetrievalResult) : (keyLe a b || keyLe b a) = true := by
  rw [Bool.or_eq_true, keyLe, keyLe, Bool.or_eq_true, Bool.or_eq_true,
    Bool.and_eq_true, Bool.and_eq_true, beq_iff_eq, beq_iff_eq,
    decide_eq_true_eq, decide_eq_true_eq]
  rcases charListLt_total a.document_name.data b.document_name.data with h | h | h
  · have heq : a.document_name = b.document_name := string_ext_of_data h
    rcases Nat.le_total a.chunk_index b.chunk_index with h' | h'
    · exact Or.inl (Or.inr ⟨heq, h'⟩)
    · exact Or.inr (Or.inr ⟨heq.symm, h'⟩)
  · exact Or.inl (Or.inl h)
  · exact Or.inr (Or.inl h)

theorem sortedByKey_of_pairwise {l : List RetrievalResult}
    (h : l.Pairwise (fun a b => keyLe a b = true)) : sortedByKey l = true := by
  induction l with
  | nil => rfl
  | cons a rest ih =>
    cases rest with
    | nil => rfl
    | cons b rest' =>
      rw [sortedByKey, Bool.and_eq_true]
      rcases List.pairwise_cons.mp h with ⟨hhead, htail⟩
      exact ⟨hhead b (List.mem_cons_self b rest'), ih htail⟩

/-- **C8 counterexample**: with `context_chunks = 0`, `search_with_context`
returns the primary results unchanged, in relevance order, which need not be
sorted by `(document_name, chunk_index)`: two hits from documents "B" then "A"
come back in that order. -/
theorem search_with_context_zero_context_unsorted :
    search_with_context
      [⟨"hitB", "B", ['x'], mkRat 1 1, "u", 0⟩, ⟨"hitA", "A", ['y'], mkRat 9 10, "u", 0⟩] [] 2 0 =
      [⟨"hitB", "B", ['x'], mkRat 1 1, "u", 0⟩, ⟨"hitA", "A", ['y'], mkRat 9 10, "u", 0⟩] ∧
    sortedByKey
      (search_with_context
        [⟨"hitB", "B", ['x'], mkRat 1 1, "u", 0⟩, ⟨"hitA", "A", ['y'], mkRat 9 10, "u", 0⟩] [] 2 0) =
      false := by
  exact ⟨by decide, by decide⟩

/-- **C8 amended** (corrected): for `context_chunks ≥ 1`, the list returned by
`search_with_context` contains (by id) every result of `search` with the same
candidates (the default `min_score = 0.7`), is sorted by
`(document_name, chunk_index)`, and every element is either a primary `search`
result or carries the fixed sentinel score `0.5`. (With `context_chunks = 0`
the primary results are returned unchanged in relevance order, not re-sorted —
see the counterexample.) -/
theorem search_with_context_superset_sorted (candidates : List RetrievalResult)
    (store : List StoreRecord) (top_k cc : Nat) (hcc : 1 ≤ cc) :
    (∀ r ∈ search candidates top_k (mkRat 7 10),
      r.id ∈ (search_with_context candidates store top_k cc).map RetrievalResult.id) ∧
    sortedByKey (search_with_context candidates store top_k cc) = true ∧
    (∀ r ∈ search_with_context candidates store top_k cc,
      r ∈ search candidates top_k (mkRat 7 10) ∨ r.score = mkRat 1 2) := by
  rw [search_with_context]
  by_cases hempty : (search candidates top_k (mkRat 7 10)).isEmpty ∨ cc = 0
  · rw [if_pos hempty]
    have hnil : search candidates top_k (mkRat 7 10) = [] := by
      rcases hempty with h | h
      · exact List.isEmpty_iff.mp h
      · omega
    rw [hnil]
    refine ⟨?_, rfl, ?_⟩
    · intro r hr
      simp at hr
    · intro r hr
      simp at hr
  · rw [if_neg hempty]
    simp only
    set results := search candidates top_k (mkRat 7 10) with hres
    set extras := (distinctNames results).flatMap (fun dn =>
      let idxs := (results.filter (fun r => r.document_name == dn)).map (·.chunk_index)
      (fetchAdditional store dn idxs cc).map (fun rec =>
        { id := rec.id, document_name := rec.document_name, content := rec.content,
          score := mkRat 1 2, source_url := rec.source_url,
          chunk_index := rec.chunk_index : RetrievalResult })) with hextras
    have hperm : (results ++ extras).mergeSort keyLe |>.Perm (results ++ extras) :=
      List.mergeSort_perm (results ++ extras) keyLe
    refine ⟨?_, ?_, ?_⟩
    · intro r hr
      have hmem : r ∈ (results ++ extras).mergeSort keyLe :=
        hperm.mem_iff.mpr (List.mem_append.mpr (Or.inl hr))
      exact List.mem_map_of_mem RetrievalResult.id hmem
    · exact sortedByKey_of_pairwise (List.sorted_mergeSort keyLe_trans keyLe_total _)
    · intro r hr
      have hmem : r ∈ results ++ extras := hperm.mem_iff.mp hr
      rcases List.mem_append.mp hmem with h | h
      · exact Or.inl h
      · right
        rw [hextras] at h
        rcases List.mem_flatMap.mp h with ⟨dn, _, hmem2⟩
        simp only at hmem2
        rcases List.mem_map.mp hmem2 with ⟨rec, _, hreq⟩
        rw [← hreq]

/-- Witness for C8: one primary hit at chunk 1 of "Doc", a store holding its
neighbours at chunks 0 and 2, `context_chunks = 1`. -/
theorem search_with_context_superset_sorted_witness :
    (1 : Nat) ≤ 1 ∧
    ((∀ r ∈ search [⟨"c1", "Doc", ['x'], mkRat 9 10, "u", 1⟩] 3 (mkRat 7 10),
      r.id ∈ (search_with_context [⟨"c1", "Doc", ['x'], mkRat 9 10, "u", 1⟩]
        [⟨"c0", "d", "Doc", 0, ['a'], [], "t", "u"⟩,
         ⟨"c2", "d", "Doc", 2, ['b'], [], "t", "u"⟩] 3 1).map RetrievalResult.id) ∧
    sortedByKey (search_with_context [⟨"c1", "Doc", ['x'], mkRat 9 10, "u", 1⟩]
        [⟨"c0", "d", "Doc", 0, ['a'], [], "t", "u"⟩,
         ⟨"c2", "d", "Doc", 2, ['b'], [], "t", "u"⟩] 3 1) = true ∧
    (∀ r ∈ search_with_context [⟨"c1", "Doc", ['x'], mkRat 9 10, "u", 1⟩]
        [⟨"c0", "d", "Doc", 0, ['a'], [], "t", "u"⟩,
         ⟨"c2", "d", "Doc", 2, ['b'], [], "t", "u"⟩] 3 1,
      r ∈ search [⟨"c1", "Doc", ['x'], mkRat 9 10, "u", 1⟩] 3 (mkRat 7 10) ∨ r.score = mkRat 1 2)) :=
  ⟨by decide,
    search_with_context_superset_sorted [⟨"c1", "Doc", ['x'], mkRat 9 10, "u", 1⟩]
      [⟨"c0", "d", "Doc", 0, ['a'], [], "t", "u"⟩,
       ⟨"c2", "d", "Doc", 2, ['b'], [], "t", "u"⟩] 3 1 (by decide)⟩

/-! ### Embeddings lemmas -/

theorem leIdx_trans (a b c : Nat × List ℚ) (hab : leIdx a b = true)
    (hbc : leIdx b c = true) : leIdx a c = true := by
  simp only [leIdx, decide_eq_true_eq] at hab hbc ⊢
  omega

theorem leIdx_total (a b : Nat × List ℚ) : (leIdx a b || leIdx b a) = true := by
  simp only [leIdx, Bool.or_eq_true, decide_eq_true_eq]
  omega

/-- Sorting any permutation of an `enum`-indexed list by the request-local
index recovers the original order. -/
theorem mergeSort_leIdx_enum (v : List (List ℚ)) (w : List (Nat × List ℚ))
    (hw : w.Perm v.enum) : w.mergeSort leIdx = v.enum := by
  have hsorted := List.sorted_mergeSort leIdx_trans leIdx_total w
  have hperm : (w.mergeSort leIdx).Perm v.enum := (List.mergeSort_perm w leIdx).trans hw
  have henum : (v.enum).Pairwise (fun a b => a.1 < b.1) := by
    have h1 : List.Pairwise (· < ·) (List.range v.length) := List.pairwise_lt_range _
    have h2 : v.enum.map Prod.fst = List.range v.length := List.enum_map_fst v
    rw [← h2] at h1
    exact (List.pairwise_map).mp h1
  have hnd : (w.mergeSort leIdx).Pairwise (fun a b => a.1 ≠ b.1) := by
    have hne : (v.enum).Pairwise (fun a b => a.1 ≠ b.1) :=
      henum.imp (fun h => Nat.ne_of_lt h)
    exact (hperm.pairwise_iff (fun h => Ne.symm h)).mpr hne
  have hsorted' : (w.mergeSort leIdx).Pairwise (fun a b => a.1 < b.1) := by
    have hand := hsorted.and hnd
    refine hand.imp ?_
    intro a b hab
    have h1 : a.1 ≤ b.1 := by
      have := hab.1
      simpa [leIdx] using this
    exact lt_of_le_of_ne h1 hab.2
  haveI : IsAntisymm (Nat × List ℚ) (fun a b => a.1 < b.1) :=
    ⟨fun a b h1 h2 => absurd h2 (by omega)⟩
  exact List.eq_of_perm_of_sorted hperm hsorted' henum

theorem batchLoop_spec (service : List (List Char) → List (Nat × List ℚ))
    (embedOf : List Char → List ℚ) (bs : Nat) (hbs : 0 < bs)
    (hsvc : ∀ batch, (service batch).Perm ((batch.map embedOf).enum)) :
    ∀ fuel processed, processed.length ≤ fuel →
    batchLoop service bs fuel processed = processed.map embedOf := by
  intro fuel
  induction fuel with
  | zero =>
    intro processed h
    have hnil : processed = [] := List.eq_nil_of_length_eq_zero (by omega)
    subst hnil
    rfl
  | succ fuel ih =>
    intro processed h
    cases processed with
    | nil => rfl
    | cons t rest =>
      rw [batchLoop]
      case x_2 => intro hcontra; exact List.noConfusion hcontra
      have hms := mergeSort_leIdx_enum (((t :: rest).take bs).map embedOf)
        (service ((t :: rest).take bs)) (hsvc ((t :: rest).take bs))
      rw [hms, List.enum_map_snd]
      have hrec : batchLoop service bs fuel ((t :: rest).drop bs) =
          ((t :: rest).drop bs).map embedOf := by
        refine ih _ ?_
        have : ((t :: rest).drop bs).length = (t :: rest).length - bs := List.length_drop ..
        have hlen : (t :: rest).length ≤ fuel + 1 := h
        simp only [List.length_cons] at hlen ⊢
        omega
      rw [hrec, ← List.map_append, List.take_append_drop]

/-- **C3** (confirmed): for every list of input texts and every positive
`batch_size`, `generate_embeddings_batch` returns exactly one vector per input
position, in input order, whenever each batch response is some permutation of
the indexed per-text embeddings (the backend may reorder, e.g. reverse): the
output is exactly the embedding of the preprocessed text at each position
(empty-after-strip texts are replaced by a single-space placeholder), and the
output length equals the input length. -/
theorem generate_embeddings_batch_order (truncate : List Char → List Char)
    (embedOf : List Char → List ℚ)
    (service : List (List Char) → List (Nat × List ℚ))
    (texts : List (List Char)) (batch_size : Nat) (hbs : 0 < batch_size)
    (hsvc : ∀ batch, (service batch).Perm ((batch.map embedOf).enum)) :
    generate_embeddings_batch truncate service texts batch_size =
      (preprocessTexts truncate texts).map embedOf ∧
    (generate_embeddings_batch truncate service texts batch_size).length = texts.length := by
  have hmain : generate_embeddings_batch truncate service texts batch_size =
      (preprocessTexts truncate texts).map embedOf := by
    rw [generate_embeddings_batch]
    exact batchLoop_spec service embedOf batch_size hbs hsvc _ _ le_rfl
  refine ⟨hmain, ?_⟩
  rw [hmain, List.length_map, preprocessTexts, List.length_map]

/-- Witness for C3: three texts (one empty), batch size 2, and a backend that
returns every batch reversed. -/
theorem generate_embeddings_batch_order_witness :
    (0 : Nat) < 2 ∧
    (∀ batch : List (List Char),
      (((batch.map (fun t => [(t.length : ℚ)])).enum).reverse).Perm
        ((batch.map (fun t => [(t.length : ℚ)])).enum)) ∧
    (generate_embeddings_batch id
        (fun b => ((b.map (fun t => [(t.length : ℚ)])).enum).reverse)
        [['h', 'i'], [], ['x']] 2 =
      (preprocessTexts id [['h', 'i'], [], ['x']]).map (fun t => [(t.length : ℚ)]) ∧
    (generate_embeddings_batch id
        (fun b => ((b.map (fun t => [(t.length : ℚ)])).enum).reverse)
        [['h', 'i'], [], ['x']] 2).length = 3) :=
  ⟨by decide, fun batch => List.reverse_perm _,
    generate_embeddings_batch_order id (fun t => [(t.length : ℚ)])
      (fun b => ((b.map (fun t => [(t.length : ℚ)])).enum).reverse)
      [['h', 'i'], [], ['x']] 2 (by decide)
      (fun batch => List.reverse_perm _)⟩

/-! ### Indexer lemmas -/

/-- **C10** (confirmed): `delete_document_chunks` returns exactly the number of
stored chunks whose `document_id` equals the argument; when the store holds no
such chunk it returns `0`, issues no delete call, and leaves the store
unchanged. -/
theorem delete_document_chunks_count_frame (store : List StoreRecord)
    (document_id : String) :
    (delete_document_chunks store document_id).1 =
      (store.filter (fun r => r.document_id == document_id)).length ∧
    ((∀ r ∈ store, r.document_id ≠ document_id) →
      delete_document_chunks store document_id = (0, [], store)) := by
  constructor
  · rw [delete_document_chunks]
    by_cases h : ((store.filter (fun r => r.document_id == document_id)).map (·.id)).isEmpty
    · rw [if_pos h]
      simp
    · rw [if_neg h]
      simp
  · intro hnone
    rw [delete_document_chunks]
    have hfilt : store.filter (fun r => r.document_id == document_id) = [] := by
      rw [List.filter_eq_nil_iff]
      intro r hr
      simp only [beq_iff_eq]
      simpa using hnone r hr
    rw [hfilt]
    rfl

/-- Witness for C10: a two-record store and a document id matching nothing. -/
theorem delete_document_chunks_count_frame_witness :
    ((delete_document_chunks
        [⟨"c1", "d1", "Doc", 0, ['a'], [], "t", "u"⟩,
         ⟨"c2", "d1", "Doc", 1, ['b'], [], "t", "u"⟩] "nope").1 =
      (([⟨"c1", "d1", "Doc", 0, ['a'], [], "t", "u"⟩,
         ⟨"c2", "d1", "Doc", 1, ['b'], [], "t", "u"⟩] :
        List StoreRecord).filter (fun r => r.document_id == "nope")).length ∧
     ((∀ r ∈ ([⟨"c1", "d1", "Doc", 0, ['a'], [], "t", "u"⟩,
          ⟨"c2", "d1", "Doc", 1, ['b'], [], "t", "u"⟩] : List StoreRecord),
        r.document_id ≠ "nope") →
      delete_document_chunks
        [⟨"c1", "d1", "Doc", 0, ['a'], [], "t", "u"⟩,
         ⟨"c2", "d1", "Doc", 1, ['b'], [], "t", "u"⟩] "nope" =
        (0, [],
         [⟨"c1", "d1", "Doc", 0, ['a'], [], "t", "u"⟩,
          ⟨"c2", "d1", "Doc", 1, ['b'], [], "t", "u"⟩]))) ∧
    (∀ r ∈ ([⟨"c1", "d1", "Doc", 0, ['a'], [], "t", "u"⟩,
        ⟨"c2", "d1", "Doc", 1, ['b'], [], "t", "u"⟩] : List StoreRecord),
      r.document_id ≠ "nope") :=
  ⟨delete_document_chunks_count_frame _ "nope", by decide⟩

theorem upsertOne_ids_of_present {store : List StoreRecord} {d : StoreRecord}
    (h : d.id ∈ store.map StoreRecord.id) :
    (upsertOne store d).map StoreRecord.id = store.map StoreRecord.id := by
  have hany : store.any (fun r => r.id == d.id) = true := by
    rcases List.mem_map.mp h with ⟨r, hr, hid⟩
    rw [List.any_eq_true]
    exact ⟨r, hr, by rw [beq_iff_eq]; exact hid⟩
  rw [upsertOne, if_pos hany, List.map_map]
  refine List.map_congr_left ?_
  intro r _
  by_cases hid : r.id == d.id
  · simp only [Function.comp, hid, if_true]
    exact (beq_iff_eq.mp hid).symm
  · simp only [Function.comp, hid]
    rfl

theorem upsertOne_id_mem (store : List StoreRecord) (d : StoreRecord) :
    d.id ∈ (upsertOne store d).map StoreRecord.id := by
  rw [upsertOne]
  by_cases hany : store.any (fun r => r.id == d.id) = true
  · rw [if_pos hany]
    rcases List.any_eq_true.mp hany with ⟨r, hr, hid⟩
    refine List.mem_map.mpr ⟨d, ?_, rfl⟩
    refine List.mem_map.mpr ⟨r, hr, ?_⟩
    rw [hid]
    rfl
  · rw [if_neg hany]
    simp

theorem upsertOne_ids_mono {store : List StoreRecord} {d : StoreRecord} {x : String}
    (h : x ∈ store.map StoreRecord.id) :
    x ∈ (upsertOne store d).map StoreRecord.id := by
  rw [upsertOne]
  by_cases hany : store.any (fun r => r.id == d.id) = true
  · rw [if_pos hany]
    rcases List.mem_map.mp h with ⟨r, hr, hid⟩
    by_cases hid' : r.id == d.id
    · refine List.mem_map.mpr ⟨d, List.mem_map.mpr ⟨r, hr, by rw [if_pos hid']⟩, ?_⟩
      rw [← hid, beq_iff_eq.mp hid']
    · exact List.mem_map.mpr ⟨r, List.mem_map.mpr ⟨r, hr, by rw [if_neg hid']⟩, hid⟩
  · rw [if_neg hany]
    rw [List.map_append]
    exact List.mem_append.mpr (Or.inl h)

theorem upload_documents_ids_mono {x : String} :
    ∀ (ds : List StoreRecord) (store : List StoreRecord),
    x ∈ store.map StoreRecord.id →
    x ∈ (upload_documents store ds).map StoreRecord.id := by
  intro ds
  induction ds with
  | nil => intro store h; exact h
  | cons d ds ih =>
    intro store h
    exact ih (upsertOne store d) (upsertOne_ids_mono h)

theorem upload_documents_mem_ids :
    ∀ (ds : List StoreRecord) (store : List StoreRecord),
    ∀ d ∈ ds, d.id ∈ (upload_documents store ds).map StoreRecord.id := by
  intro ds
  induction ds with
  | nil => intro store d hd; simp at hd
  | cons e ds ih =>
    intro store d hd
    rcases List.mem_cons.mp hd with h | h
    · subst h
      exact upload_documents_ids_mono ds (upsertOne store d) (upsertOne_id_mem store d)
    · exact ih (upsertOne store e) d h

theorem upload_documents_ids_of_present :
    ∀ (ds : List StoreRecord) (store : List StoreRecord),
    (∀ d ∈ ds, d.id ∈ store.map StoreRecord.id) →
    (upload_documents store ds).map StoreRecord.id = store.map StoreRecord.id := by
  intro ds
  induction ds with
  | nil => intro store _; rfl
  | cons d ds ih =>
    intro store h
    have hd : d.id ∈ store.map StoreRecord.id := h d (List.mem_cons_self d ds)
    have hstep := upsertOne_ids_of_present hd
    have hrest : ∀ e ∈ ds, e.id ∈ (upsertOne store d).map StoreRecord.id := by
      intro e he
      rw [hstep]
      exact h e (List.mem_cons_of_mem d he)
    calc (upload_documents (upsertOne store d) ds).map StoreRecord.id
        = (upsertOne store d).map StoreRecord.id := ih (upsertOne store d) hrest
      _ = store.map StoreRecord.id := hstep

theorem zip_enumFrom_map (f : Nat → List Char → String) :
    ∀ (chunks : List (List Char)) (emb : List (List ℚ)) (n : Nat),
    emb.length = chunks.length →
    ((chunks.zip emb).enumFrom n).map (fun p => f p.1 p.2.1) =
      (chunks.enumFrom n).map (fun p => f p.1 p.2) := by
  intro chunks
  induction chunks with
  | nil => intro emb n _; rfl
  | cons c cs ih =>
    intro emb n hlen
    cases emb with
    | nil => simp at hlen
    | cons e es =>
      simp only [List.zip_cons_cons, List.enumFrom_cons, List.map_cons]
      refine congrArg _ ?_
      exact ih es (n + 1) (by simpa using hlen)

theorem zip_enumFrom_length :
    ∀ (chunks : List (List Char)) (emb : List (List ℚ)),
    emb.length = chunks.length →
    ((chunks.zip emb).enum).length = chunks.length := by
  intro chunks emb h
  rw [List.enum_length, List.length_zip, h, Nat.min_self]

/-- A run of `index_document` uploads records whose ids are exactly
`index_document_ids doc text`, independent of the embedding values, the
timestamp, and the prior store contents. -/
theorem index_document_spec (doc : SPDocument) (text : List Char)
    (eb : List (List Char) → List (List ℚ)) (now : String)
    (store : List StoreRecord) (h : ∀ l, (eb l).length = l.length) :
    ∃ ds : List StoreRecord,
      index_document doc text eb now store = (ds.length, upload_documents store ds) ∧
      ds.map StoreRecord.id = index_document_ids doc text := by
  rw [index_document, index_document_ids]
  by_cases htext : text.isEmpty
  · rw [if_pos htext, if_pos htext]
    exact ⟨[], rfl, rfl⟩
  · rw [if_neg htext, if_neg htext]
    cases hct : chunk_text text with
    | none => exact ⟨[], rfl, rfl⟩
    | some chunks =>
      simp only
      by_cases hch : chunks.isEmpty
      · rw [if_pos hch, if_pos hch]
        exact ⟨[], rfl, rfl⟩
      · rw [if_neg hch, if_neg hch]
        refine ⟨_, rfl, ?_⟩
        rw [List.map_map]
        exact zip_enumFrom_map (fun i c => chunkId doc.id i c) chunks (eb chunks) 0
          (h chunks)

/-- **C1** (confirmed): for a document whose extracted text is unchanged,
running `index_document` a second time uploads exactly the same chunk ids as
the first run (each id being the 32-hex-character SHA-256 prefix computed by
`chunkId` from the document id, the chunk index and the first 100 characters
of the chunk), reports the same chunk count, and — since the store upsert is
insert-or-replace by id — leaves the store's id list (hence its size)
unchanged. -/
theorem index_document_idempotent (doc : SPDocument) (text : List Char)
    (eb1 eb2 : List (List Char) → List (List ℚ)) (now1 now2 : String)
    (store : List StoreRecord)
    (h1 : ∀ l, (eb1 l).length = l.length) (h2 : ∀ l, (eb2 l).length = l.length) :
    (index_document doc text eb2 now2 (index_document doc text eb1 now1 store).2).1 =
      (index_document doc text eb1 now1 store).1 ∧
    (∀ i ∈ index_document_ids doc text,
      i ∈ (index_document doc text eb1 now1 store).2.map StoreRecord.id) ∧
    (index_document doc text eb2 now2
        (index_document doc text eb1 now1 store).2).2.map StoreRecord.id =
      (index_document doc text eb1 now1 store).2.map StoreRecord.id := by
  obtain ⟨ds1, hrun1, hids1⟩ := index_document_spec doc text eb1 now1 store h1
  obtain ⟨ds2, hrun2, hids2⟩ :=
    index_document_spec doc text eb2 now2 (index_document doc text eb1 now1 store).2 h2
  have hmem1 : ∀ i ∈ index_document_ids doc text,
      i ∈ (index_document doc text eb1 now1 store).2.map StoreRecord.id := by
    intro i hi
    rw [← hids1] at hi
    rcases List.mem_map.mp hi with ⟨d, hd, hdi⟩
    rw [hrun1]
    simp only
    rw [← hdi]
    exact upload_documents_mem_ids ds1 store d hd
  refine ⟨?_, hmem1, ?_⟩
  · rw [hrun2, hrun1]
    simp only
    have e1 : ds1.length = (index_document_ids doc text).length := by
      rw [← hids1, List.length_map]
    have e2 : ds2.length = (index_document_ids doc text).length := by
      rw [← hids2, List.length_map]
    omega
  · rw [hrun2]
    simp only
    refine upload_documents_ids_of_present ds2 _ ?_
    intro d hd
    refine hmem1 d.id ?_
    rw [← hids2]
    exact List.mem_map_of_mem StoreRecord.id hd

/-- Witness for C1: a 2-chunk-free short text, identity-shaped embedding
backends of the right length, an empty store. -/
theorem index_document_idempotent_witness :
    (∀ l : List (List Char), (l.map (fun _ => ([] : List ℚ))).length = l.length) ∧
    ((index_document ⟨"d1", "a.pdf", "w", "dl", "application/pdf", 3⟩ ['h', 'i']
        (fun l => l.map (fun _ => ([] : List ℚ))) "t2"
        (index_document ⟨"d1", "a.pdf", "w", "dl", "application/pdf", 3⟩ ['h', 'i']
          (fun l => l.map (fun _ => ([] : List ℚ))) "t1" []).2).1 =
      (index_document ⟨"d1", "a.pdf", "w", "dl", "application/pdf", 3⟩ ['h', 'i']
        (fun l => l.map (fun _ => ([] : List ℚ))) "t1" []).1 ∧
    (∀ i ∈ index_document_ids ⟨"d1", "a.pdf", "w", "dl", "application/pdf", 3⟩ ['h', 'i'],
      i ∈ (index_document ⟨"d1", "a.pdf", "w", "dl", "application/pdf", 3⟩ ['h', 'i']
        (fun l => l.map (fun _ => ([] : List ℚ))) "t1" []).2.map StoreRecord.id) ∧
    (index_document ⟨"d1", "a.pdf", "w", "dl", "application/pdf", 3⟩ ['h', 'i']
        (fun l => l.map (fun _ => ([] : List ℚ))) "t2"
        (index_document ⟨"d1", "a.pdf", "w", "dl", "application/pdf", 3⟩ ['h', 'i']
          (fun l => l.map (fun _ => ([] : List ℚ))) "t1" []).2).2.map StoreRecord.id =
      (index_document ⟨"d1", "a.pdf", "w", "dl", "application/pdf", 3⟩ ['h', 'i']
        (fun l => l.map (fun _ => ([] : List ℚ))) "t1" []).2.map StoreRecord.id) :=
  ⟨fun l => by rw [List.length_map],
    index_document_idempotent ⟨"d1", "a.pdf", "w", "dl", "application/pdf", 3⟩
      ['h', 'i'] (fun l => l.map (fun _ => ([] : List ℚ)))
      (fun l => l.map (fun _ => ([] : List ℚ))) "t1" "t2" []
      (fun l => by rw [List.length_map]) (fun l => by rw [List.length_map])⟩

theorem dictLookup_cons (p : String × Nat) (m : List (String × Nat)) (k : String) :
    dictLookup (p :: m) k = if p.1 == k then some p.2 else dictLookup m k := by
  cases h : p.1 == k
  · simp [dictLookup, List.find?, h]
  · simp [dictLookup, List.find?, h]

theorem dictLookup_append_ne {m : List (String × Nat)} {j k : String} {v : Nat}
    (h : j ≠ k) : dictLookup (m ++ [(j, v)]) k = dictLookup m k := by
  induction m with
  | nil =>
    rw [List.nil_append, dictLookup_cons]
    have : ((j, v).1 == k) = false := by
      simp only [beq_eq_false_iff_ne]
      exact h
    rw [this]
    rfl
  | cons p m ih =>
    rw [List.cons_append, dictLookup_cons, dictLookup_cons, ih]

theorem dictLookup_append_absent {m : List (String × Nat)} {k : String} {v : Nat}
    (h : ∀ p ∈ m, p.1 ≠ k) : dictLookup (m ++ [(k, v)]) k = some v := by
  induction m with
  | nil =>
    rw [List.nil_append, dictLookup_cons]
    simp
  | cons p m ih =>
    rw [List.cons_append, dictLookup_cons]
    have hp : (p.1 == k) = false := by
      simp only [beq_eq_false_iff_ne]
      exact h p (List.mem_cons_self p m)
    rw [hp]
    simp only [Bool.false_eq_true, if_false]
    exact ih (fun q hq => h q (List.mem_cons_of_mem p hq))

theorem dictInsert_absent {m : List (String × Nat)} {k : String} {v : Nat}
    (h : ∀ p ∈ m, p.1 ≠ k) : dictInsert m k v = m ++ [(k, v)] := by
  rw [dictInsert]
  have hany : (m.any (fun p => p.1 == k)) = false := by
    rw [List.any_eq_false]
    intro p hp
    simp only [beq_iff_eq]
    exact h p hp
  rw [hany]
  rfl

/-- The result of `indexAllStep` for one document: the chunk count on success,
`0` on a caught exception. -/
def stepValue (indexResult : SPDocument → Except Unit Nat) (d : SPDocument) : Nat :=
  match indexResult d with
  | .ok n => n
  | .error _ => 0

theorem indexAllStep_eq (indexResult : SPDocument → Except Unit Nat)
    (results : List (String × Nat)) (doc : SPDocument) :
    indexAllStep indexResult results doc =
      dictInsert results doc.name (stepValue indexResult doc) := by
  rw [indexAllStep, stepValue]
  cases indexResult doc with
  | ok n => rfl
  | error u => rfl

theorem index_all_fold (indexResult : SPDocument → Except Unit Nat) :
    ∀ (docs : List SPDocument) (acc : List (String × Nat)),
    namesNodup docs = true →
    (∀ d ∈ docs, ∀ p ∈ acc, p.1 ≠ d.name) →
    (docs.foldl (indexAllStep indexResult) acc).length = acc.length + docs.length ∧
    (∀ d ∈ docs, dictLookup (docs.foldl (indexAllStep indexResult) acc) d.name =
      some (stepValue indexResult d)) ∧
    (∀ k, (∀ d ∈ docs, d.name ≠ k) →
      dictLookup (docs.foldl (indexAllStep indexResult) acc) k = dictLookup acc k) := by
  intro docs
  induction docs with
  | nil =>
    intro acc _ _
    refine ⟨by simp, ?_, ?_⟩
    · intro d hd; simp at hd
    · intro k _; rfl
  | cons d ds ih =>
    intro acc hnodup hacc
    rw [namesNodup, Bool.and_eq_true] at hnodup
    have hdns : ∀ e ∈ ds, e.name ≠ d.name := by
      intro e he
      have := hnodup.1
      rw [Bool.not_eq_true', List.any_eq_false] at this
      have h' := this e he
      simpa using h'
    have hstep : indexAllStep indexResult acc d =
        acc ++ [(d.name, stepValue indexResult d)] := by
      rw [indexAllStep_eq]
      exact dictInsert_absent (fun p hp => hacc d (List.mem_cons_self d ds) p hp)
    have hacc' : ∀ e ∈ ds, ∀ p ∈ acc ++ [(d.name, stepValue indexResult d)],
        p.1 ≠ e.name := by
      intro e he p hp
      rcases List.mem_append.mp hp with h | h
      · exact hacc e (List.mem_cons_of_mem d he) p h
      · have hpd : p = (d.name, stepValue indexResult d) := by simpa using h
        rw [hpd]
        exact fun hne => hdns e he hne.symm
    obtain ⟨ihlen, ihlookup, ihframe⟩ := ih (acc ++ [(d.name, stepValue indexResult d)])
      hnodup.2 hacc'
    rw [List.foldl_cons, hstep]
    refine ⟨?_, ?_, ?_⟩
    · rw [ihlen]
      simp only [List.length_append, List.length_cons, List.length_nil]
      omega
    · intro e he
      rcases List.mem_cons.mp he with h | h
      · subst h
        rw [ihframe e.name hdns]
        exact dictLookup_append_absent (fun p hp => hacc e (List.mem_cons_self e ds) p hp)
      · exact ihlookup e h
    · intro k hk
      have hdk : d.name ≠ k := hk d (List.mem_cons_self d ds)
      rw [ihframe k (fun e he => hk e (List.mem_cons_of_mem d he))]
      exact dictLookup_append_ne hdk

theorem lookup_map_replace {m : List (String × Nat)} {k : String} {v : Nat}
    (h : m.any (fun p => p.1 == k) = true) :
    dictLookup (m.map (fun p => if p.1 == k then (k, v) else p)) k = some v := by
  induction m with
  | nil => simp at h
  | cons p m ih =>
    rw [List.map_cons]
    cases hp : p.1 == k
    · simp only [Bool.false_eq_true, if_false, dictLookup_cons, hp]
      rw [List.any_cons, hp, Bool.false_or] at h
      exact ih h
    · simp [dictLookup_cons]

theorem lookup_map_replace_ne {m : List (String × Nat)} {k j : String} {v : Nat}
    (h : k ≠ j) :
    dictLookup (m.map (fun p => if p.1 == k then (k, v) else p)) j = dictLookup m j := by
  induction m with
  | nil => rfl
  | cons p m ih =>
    rw [List.map_cons]
    have hkj : (k == j) = false := by
      simp only [beq_eq_false_iff_ne]
      exact h
    cases hp : p.1 == k
    · simp only [Bool.false_eq_true, if_false, dictLookup_cons, ih]
    · have hpk : p.1 = k := beq_iff_eq.mp hp
      have hpj : (p.1 == j) = false := by
        simp only [beq_eq_false_iff_ne]
        rw [hpk]
        exact h
      simp only [if_true, dictLookup_cons, hkj, hpj, Bool.false_eq_true, if_false, ih]

theorem dictInsert_lookup_self (m : List (String × Nat)) (k : String) (v : Nat) :
    dictLookup (dictInsert m k v) k = some v := by
  rw [dictInsert]
  cases hany : m.any (fun p => p.1 == k)
  · simp only [Bool.false_eq_true, if_false]
    refine dictLookup_append_absent ?_
    rw [List.any_eq_false] at hany
    intro p hp
    have := hany p hp
    simpa using this
  · simp only [if_true]
    exact lookup_map_replace hany

theorem dictInsert_lookup_ne (m : List (String × Nat)) {k j : String} (v : Nat)
    (h : k ≠ j) : dictLookup (dictInsert m k v) j = dictLookup m j := by
  rw [dictInsert]
  cases hany : m.any (fun p => p.1 == k)
  · simp only [Bool.false_eq_true, if_false]
    exact dictLookup_append_ne h
  · simp only [if_true]
    exact lookup_map_replace_ne h

theorem indexAllStep_lookup_isSome_mono (indexResult : SPDocument → Except Unit Nat)
    (acc : List (String × Nat)) (doc : SPDocument) {j : String}
    (h : (dictLookup acc j).isSome = true) :
    (dictLookup (indexAllStep indexResult acc doc) j).isSome = true := by
  rw [indexAllStep_eq]
  by_cases hj : doc.name = j
  · subst hj
    rw [dictInsert_lookup_self]
    rfl
  · rw [dictInsert_lookup_ne _ _ hj]
    exact h

theorem index_all_fold_isSome_mono (indexResult : SPDocument → Except Unit Nat) :
    ∀ (docs : List SPDocument) (acc : List (String × Nat)) (j : String),
    (dictLookup acc j).isSome = true →
    (dictLookup (docs.foldl (indexAllStep indexResult) acc) j).isSome = true := by
  intro docs
  induction docs with
  | nil => intro acc j h; exact h
  | cons d ds ih =>
    intro acc j h
    rw [List.foldl_cons]
    exact ih _ j (indexAllStep_lookup_isSome_mono indexResult acc d h)

theorem index_all_fold_isSome (indexResult : SPDocument → Except Unit Nat) :
    ∀ (docs : List SPDocument) (acc : List (String × Nat)),
    ∀ d ∈ docs,
    (dictLookup (docs.foldl (indexAllStep indexResult) acc) d.name).isSome = true := by
  intro docs
  induction docs with
  | nil => intro acc d hd; simp at hd
  | cons e ds ih =>
    intro acc d hd
    rw [List.foldl_cons]
    rcases List.mem_cons.mp hd with h | h
    · subst h
      refine index_all_fold_isSome_mono indexResult ds _ d.name ?_
      rw [indexAllStep_eq, dictInsert_lookup_self]
      rfl
    · exact ih _ d h

/-- **C2** (confirmed): if any one document's indexing fails, `index_all_documents`
catches the failure, records `0` as that document's chunk count, and still
indexes every remaining document: the returned mapping has an entry for every
supported document, and — when the supported documents have pairwise distinct
names, so that no dict entry is overwritten — it has exactly one entry per
supported document, each name mapping to its own chunk count (`0` exactly when
its indexing raised). -/
theorem index_all_documents_isolation (indexResult : SPDocument → Except Unit Nat)
    (documents : List SPDocument) :
    (∀ d ∈ documents, d.is_supported = true →
      (dictLookup (index_all_documents indexResult documents) d.name).isSome = true) ∧
    (namesNodup (documents.filter (fun d => d.is_supported)) = true →
      (index_all_documents indexResult documents).length =
        (documents.filter (fun d => d.is_supported)).length ∧
      ∀ d ∈ documents, d.is_supported = true →
        dictLookup (index_all_documents indexResult documents) d.name =
          some (stepValue indexResult d)) := by
  constructor
  · intro d hd hsupp
    rw [index_all_documents]
    exact index_all_fold_isSome indexResult _ [] d (List.mem_filter.mpr ⟨hd, hsupp⟩)
  · intro hnodup
    obtain ⟨hlen, hlookup, _⟩ := index_all_fold indexResult
      (documents.filter (fun d => d.is_supported)) [] hnodup (by intro d _ p hp; simp at hp)
    rw [index_all_documents]
    refine ⟨by rw [hlen]; simp, ?_⟩
    intro d hd hsupp
    exact hlookup d (List.mem_filter.mpr ⟨hd, hsupp⟩)

/-- Witness for C2: four documents — two that succeed, one whose indexing
fails (recorded as `0`), one unsupported (absent from the results). -/
theorem index_all_documents_isolation_witness :
    namesNodup (([⟨"1", "a.pdf", "w", "dl", "application/pdf", 1⟩,
        ⟨"2", "b.pdf", "w", "dl", "application/pdf", 2⟩,
        ⟨"3", "c.docx", "w", "dl", "application/msword", 3⟩,
        ⟨"4", "d.txt", "w", "dl", "text/plain", 4⟩] :
      List SPDocument).filter (fun d => d.is_supported)) = true ∧
    ((index_all_documents
        (fun d => if d.name = "b.pdf" then Except.error () else Except.ok d.size)
        [⟨"1", "a.pdf", "w", "dl", "application/pdf", 1⟩,
         ⟨"2", "b.pdf", "w", "dl", "application/pdf", 2⟩,
         ⟨"3", "c.docx", "w", "dl", "application/msword", 3⟩,
         ⟨"4", "d.txt", "w", "dl", "text/plain", 4⟩]).length =
      (([⟨"1", "a.pdf", "w", "dl", "application/pdf", 1⟩,
         ⟨"2", "b.pdf", "w", "dl", "application/pdf", 2⟩,
         ⟨"3", "c.docx", "w", "dl", "application/msword", 3⟩,
         ⟨"4", "d.txt", "w", "dl", "text/plain", 4⟩] :
        List SPDocument).filter (fun d => d.is_supported)).length ∧
    ∀ d ∈ ([⟨"1", "a.pdf", "w", "dl", "application/pdf", 1⟩,
        ⟨"2", "b.pdf", "w", "dl", "application/pdf", 2⟩,
        ⟨"3", "c.docx", "w", "dl", "application/msword", 3⟩,
        ⟨"4", "d.txt", "w", "dl", "text/plain", 4⟩] : List SPDocument),
      d.is_supported = true →
      dictLookup (index_all_documents
          (fun d => if d.name = "b.pdf" then Except.error () else Except.ok d.size)
          [⟨"1", "a.pdf", "w", "dl", "application/pdf", 1⟩,
           ⟨"2", "b.pdf", "w", "dl", "application/pdf", 2⟩,
           ⟨"3", "c.docx", "w", "dl", "application/msword", 3⟩,
           ⟨"4", "d.txt", "w", "dl", "text/plain", 4⟩]) d.name =
        some (stepValue
          (fun d => if d.name = "b.pdf" then Except.error () else Except.ok d.size) d)) :=
  ⟨by decide,
    (index_all_documents_isolation
      (fun d => if d.name = "b.pdf" then Except.error () else Except.ok d.size)
      [⟨"1", "a.pdf", "w", "dl", "application/pdf", 1⟩,
       ⟨"2", "b.pdf", "w", "dl", "application/pdf", 2⟩,
       ⟨"3", "c.docx", "w", "dl", "application/msword", 3⟩,
       ⟨"4", "d.txt", "w", "dl", "text/plain", 4⟩]).2 (by decide)⟩

end RagPipeline
